import Mathlib

/-!
Verification development for the remote-world manifest reconstruction code in
`crates/dojo-world/src/manifest.rs`.

The Rust functions are embedded shallowly:
* field elements are embedded as `Nat` (the code only compares them for
  equality and hashes them, never does field arithmetic);
* `HashMap`s are embedded as functions `key → Option value` (the code only
  inserts, updates and looks up entries; the one place a `HashMap` is
  iterated to build a `Vec` has unspecified order, so the mapping itself is
  the modelled result);
* panics (`expect`, `unwrap`, out-of-bounds indexing) are embedded as a
  distinguished `panicked` outcome, or as `Option.none` for the pure parsing
  helpers;
* the async provider is embedded as a record of pure response functions, and
  the unbounded pagination loop takes explicit fuel.
-/

set_option autoImplicit false

namespace DojoManifest

/-- Field elements of the ledger (252-bit integers).  The manifest code only
compares them for equality, so they are embedded as `Nat`. -/
abbrev FieldElement := Nat

/-- An emitted ledger event, as consumed by `manifest.rs`: its key list, its
data payload and its optional origin block number.  (The Rust struct also
carries block hash, emitting address and transaction hash; none of those are
read by the manifest code, so they are omitted from the embedding.) -/
structure EmittedEvent where
  keys : List FieldElement
  data : List FieldElement
  block_number : Option Nat
deriving DecidableEq, Repr

/-- `ComputedValueEntrypoint` from `manifest.rs`. -/
structure ComputedValueEntrypoint where
  contract : String
  entrypoint : String
  model : Option String
deriving DecidableEq, Repr

/-- `Contract` from `manifest.rs`.  The `abi` field's schema-description type
is external to this file's scope and is embedded opaquely as `Unit`.  The
defaults mirror the Rust `Default` derivation. -/
structure Contract where
  name : String := ""
  address : Option FieldElement := none
  class_hash : FieldElement := 0
  abi : Option Unit := none
  reads : List String := []
  writes : List String := []
  computed : List ComputedValueEntrypoint := []
deriving DecidableEq, Repr

/-- `Class` from `manifest.rs`. -/
structure Class where
  name : String := ""
  class_hash : FieldElement := 0
  abi : Option Unit := none
deriving DecidableEq, Repr

/-- `Member` from `manifest.rs` (one field of a model schema). -/
structure Member where
  name : String
  ty : String
  key : Bool
deriving DecidableEq, Repr

/-- The distinguished Starknet error classes `manifest.rs` matches on,
plus an opaque code for every other Starknet error. -/
inductive StarknetError where
  | contractNotFound
  | contractError
  | otherStarknet (code : Nat)
deriving DecidableEq, Repr

/-- Provider errors: either a wrapped Starknet error or any other
transport/deserialization error, embedded opaquely. -/
inductive ProviderError where
  | starknetError (e : StarknetError)
  | otherProvider (code : Nat)
deriving DecidableEq, Repr

/-- Errors of the generated contract-reader calls (cainome), opaque here. -/
inductive CainomeError where
  | cainome (code : Nat)
deriving DecidableEq, Repr

/-- `ManifestError` from `manifest.rs` (the variants reachable from the
remote-reconstruction path). -/
inductive ManifestError where
  | remoteWorldNotFound
  | parseCairoShortString
  | provider (e : ProviderError)
  | contractRead (e : CainomeError)
deriving DecidableEq, Repr

/-- Result of running an embedded fallible computation: a value, a returned
`ManifestError`, a Rust panic, or exhaustion of the explicit fuel that the
embedding gives to the unbounded pagination loop. -/
inductive Outcome (α : Type) where
  | ok (a : α)
  | err (e : ManifestError)
  | panicked
  | fuelOut
deriving DecidableEq, Repr

/-- Modelled from the spec: the external short-string codec (the starknet
utility `parse_cairo_short_string`, not part of this repository).  A field
element packs a short ASCII string as big-endian bytes; decoding fails when
the value does not fit 31 bytes or the bytes are not valid text (an interior
NUL or a non-ASCII byte).  Zero decodes to the empty string. -/
def felt_bytes_be (f : Nat) : List Nat :=
  (List.range 32).map (fun i => f / 256 ^ (31 - i) % 256)

/-- Modelled from the spec: decode a packed short string, `none` on
"not valid text" (the fatal decode-failure mode of the codec). -/
def parse_cairo_short_string (f : FieldElement) : Option String :=
  if f = 0 then some ""
  else if 2 ^ 248 ≤ f then none
  else
    let bytes := (felt_bytes_be f).dropWhile (fun b => b == 0)
    if bytes.all (fun b => decide (b ≠ 0 ∧ b < 128)) then
      some (String.mk (bytes.map Char.ofNat))
    else none

/-- The three event-signature hashes `manifest.rs` computes with
`starknet_keccak` over the event names.  The hash function itself is external
(a keccak), so the embedding abstracts the three constants as parameters;
the theorems that need it assume they are pairwise distinct, which holds for
the actual hashes of the three distinct names. -/
structure Selectors where
  model_registered : FieldElement
  contract_deployed : FieldElement
  contract_upgraded : FieldElement
deriving DecidableEq, Repr

/-- One step of the classification loop in `get_remote_models_and_contracts`:
the Rust `match event.keys.first()` with its ordered guards. -/
def classify_step (sel : Selectors)
    (b : List EmittedEvent × List EmittedEvent × List EmittedEvent)
    (e : EmittedEvent) :
    List EmittedEvent × List EmittedEvent × List EmittedEvent :=
  match e.keys.head? with
  | some event_name =>
    if event_name = sel.model_registered then (b.1 ++ [e], b.2.1, b.2.2)
    else if event_name = sel.contract_deployed then (b.1, b.2.1 ++ [e], b.2.2)
    else if event_name = sel.contract_upgraded then (b.1, b.2.1, b.2.2 ++ [e])
    else b
  | none => b

/-- The event-classification loop of `get_remote_models_and_contracts`:
partition the fetched events into (registered-models, contract-deployed,
contract-upgraded) buckets by their first key. -/
def classify (sel : Selectors) (events : List EmittedEvent) :
    List EmittedEvent × List EmittedEvent × List EmittedEvent :=
  events.foldl (classify_step sel) ([], [], [])

/-- `DEFAULT_CHUNK_SIZE` from `get_events`. -/
def DEFAULT_CHUNK_SIZE : Nat := 100

/-- One page of the paginated event query: the returned events and the
optional continuation token. -/
structure EventsPage where
  events : List EmittedEvent
  continuation_token : Option Nat
deriving DecidableEq, Repr

/-- The pagination loop of `get_events`, with explicit fuel for the
unbounded Rust `loop`.  Besides the accumulated events it returns the trace
of calls issued to the page source: the (continuation token, chunk size)
argument pair of each call, in order. -/
def get_events_loop (src : Option Nat → Nat → Except ProviderError EventsPage) :
    Nat → Option Nat → Outcome (List EmittedEvent) × List (Option Nat × Nat)
  | 0, _ => (.fuelOut, [])
  | fuel + 1, token =>
    match src token DEFAULT_CHUNK_SIZE with
    | .error e => (.err (.provider e), [(token, DEFAULT_CHUNK_SIZE)])
    | .ok page =>
      match page.continuation_token with
      | none => (.ok page.events, [(token, DEFAULT_CHUNK_SIZE)])
      | some t =>
        let r := get_events_loop src fuel (some t)
        ((match r.1 with
          | .ok evs => .ok (page.events ++ evs)
          | o => o),
         (token, DEFAULT_CHUNK_SIZE) :: r.2)

/-- `get_events` from `manifest.rs`: drain the paginated event query starting
with an absent continuation token. -/
def get_events (src : Option Nat → Nat → Except ProviderError EventsPage)
    (fuel : Nat) : Outcome (List EmittedEvent) × List (Option Nat × Nat) :=
  get_events_loop src fuel none

/-- Payload extraction for a `ContractUpgraded` event: the Rust code pulls
`class_hash` then `address` from the data iterator (panicking when either is
missing), trailing elements are ignored. -/
def parse_upgraded_event (e : EmittedEvent) : Option (FieldElement × FieldElement) :=
  match e.data with
  | class_hash :: address :: _ => some (class_hash, address)
  | _ => none

/-- One step of `retain_only_latest_upgrade_events`: pull the payload
(panicking on malformed data, before the block-number check, exactly as the
Rust iterator calls do), then — only when the event carries a block number —
update the `address → (block, class_hash)` map, replacing an existing entry
only when the recorded block is strictly smaller. -/
def retain_step (m : FieldElement → Option (Nat × FieldElement)) (e : EmittedEvent) :
    Option (FieldElement → Option (Nat × FieldElement)) :=
  match parse_upgraded_event e with
  | none => none
  | some (class_hash, address) =>
    match e.block_number with
    | some num =>
      some (fun a =>
        if a = address then
          match m address with
          | some (current_block, current_class_hash) =>
            if current_block < num then some (num, class_hash)
            else some (current_block, current_class_hash)
          | none => some (num, class_hash)
        else m a)
    | none => some m

/-- The fold of `retain_only_latest_upgrade_events` over the upgrade events,
from an arbitrary starting map. -/
def retain_fold : (FieldElement → Option (Nat × FieldElement)) → List EmittedEvent →
    Option (FieldElement → Option (Nat × FieldElement))
  | m, [] => some m
  | m, e :: es =>
    match retain_step m e with
    | some m' => retain_fold m' es
    | none => none

/-- `retain_only_latest_upgrade_events` from `parse_contracts_events`: the
final `address → class_hash` projection of the reduction map. -/
def retain_only_latest_upgrade_events (events : List EmittedEvent) :
    Option (FieldElement → Option FieldElement) :=
  (retain_fold (fun _ => none) events).map (fun m a => (m a).map Prod.snd)

/-- Payload extraction for a `ContractDeployed` event: the Rust code pulls
and discards `salt`, then pulls `class_hash` and `address` (panicking when
any is missing); trailing elements are ignored. -/
def parse_deployed_event (e : EmittedEvent) :
    Option (FieldElement × FieldElement × FieldElement) :=
  match e.data with
  | salt :: class_hash :: address :: _ => some (salt, class_hash, address)
  | _ => none

/-- The per-deployment-event body of `parse_contracts_events`: build a
`Contract` whose class hash is overridden by the reduced upgrade map when the
address has an entry there. -/
def deploy_to_contract (upgradeds : FieldElement → Option FieldElement)
    (e : EmittedEvent) : Option Contract :=
  match parse_deployed_event e with
  | some (_salt, class_hash, address) =>
    some { address := some address
         , class_hash :=
             match upgradeds address with
             | some upgrade => upgrade
             | none => class_hash }
  | none => none

/-- The map over the deployment events in `parse_contracts_events`. -/
def map_deployed (upgradeds : FieldElement → Option FieldElement) :
    List EmittedEvent → Option (List Contract)
  | [] => some []
  | e :: es =>
    match deploy_to_contract upgradeds e with
    | some c => (map_deployed upgradeds es).map (fun rest => c :: rest)
    | none => none

/-- `parse_contracts_events` from `manifest.rs`. -/
def parse_contracts_events (deployed upgraded : List EmittedEvent) :
    Option (List Contract) :=
  match retain_only_latest_upgrade_events upgraded with
  | some upgradeds => map_deployed upgradeds deployed
  | none => none

/-- Modelled from the spec: decoding of a `ModelRegistered` event into the
`WorldEvent` variant (the generated `TryFrom` impl lives outside `src/`).
The spec gives the registration payload shape
`[class_hash, prev_class_hash, name]`; a payload too short to decode makes
the generated parser fail, which the call site turns into a panic. -/
def parse_model_registered (e : EmittedEvent) :
    Option (FieldElement × FieldElement × FieldElement) :=
  match e.data with
  | class_hash :: prev_class_hash :: name :: _ => some (class_hash, prev_class_hash, name)
  | _ => none

/-- One step of `parse_models_events`: decode the event (panic on failure),
decode the packed name (the Rust `unwrap` panics on failure), then apply the
conditional merge: insert when the name is new, overwrite only when the
recorded class hash equals the event's `prev_class_hash`, otherwise leave
the map unchanged. -/
def models_step (m : String → Option FieldElement) (e : EmittedEvent) :
    Option (String → Option FieldElement) :=
  match parse_model_registered e with
  | none => none
  | some (class_hash, prev_class_hash, name_felt) =>
    match parse_cairo_short_string name_felt with
    | none => none
    | some model_name =>
      some (match m model_name with
        | some current_class_hash =>
          if current_class_hash = prev_class_hash then
            fun n => if n = model_name then some class_hash else m n
          else m
        | none => fun n => if n = model_name then some class_hash else m n)

/-- The fold of `parse_models_events` over the registration events, from an
arbitrary starting map. -/
def models_fold : (String → Option FieldElement) → List EmittedEvent →
    Option (String → Option FieldElement)
  | m, [] => some m
  | m, e :: es =>
    match models_step m e with
    | some m' => models_fold m' es
    | none => none

/-- `parse_models_events` from `manifest.rs`, as the name → class-hash
mapping it builds (the Rust function then lists the map's entries in
unspecified `HashMap` iteration order). -/
def parse_models_events (events : List EmittedEvent) :
    Option (String → Option FieldElement) :=
  models_fold (fun _ => none) events

/-- The per-contract name-resolution step of
`get_remote_models_and_contracts`: `Ok` with an empty return panics (the
code indexes `res[0]` unconditionally); `Ok` with a first element decodes it
as a short string (`?` turns a decode failure into a returned error); the
`ContractError` Starknet error resolves to the empty name; any other
provider error is returned unchanged. -/
def resolve_name (r : Except ProviderError (List FieldElement)) : Outcome String :=
  match r with
  | .ok res =>
    match res with
    | [] => .panicked
    | f :: _ =>
      match parse_cairo_short_string f with
      | some s => .ok s
      | none => .err .parseCairoShortString
  | .error (.starknetError .contractError) => .ok ""
  | .error e => .err (.provider e)

/-- Overwrite a contract's name (the `contract.name = name` assignment). -/
def set_name (c : Contract) (n : String) : Contract := { c with name := n }

/-- The sequential name-resolution loop over the reconciled contracts in
`get_remote_models_and_contracts`.  The `expect("qed; missing address")` on
an absent address is a panic. -/
def fetch_contract_names
    (call : FieldElement → Except ProviderError (List FieldElement)) :
    List Contract → Outcome (List Contract)
  | [] => .ok []
  | c :: cs =>
    match c.address with
    | none => .panicked
    | some a =>
      match resolve_name (call a) with
      | .ok n =>
        match fetch_contract_names call cs with
        | .ok rest => .ok (set_name c n :: rest)
        | .err e => .err e
        | .panicked => .panicked
        | .fuelOut => .fuelOut
      | .err e => .err e
      | .panicked => .panicked
      | .fuelOut => .fuelOut

/-- The ledger provider, embedded as a record of pure response functions:
the pending-state class-hash lookup, the generated `base()` and `model(..)`
reader calls, the paginated event query (already specialized to the world
filter `manifest.rs` constructs once and reuses for every page), and the
`dojo_resource` call at a contract address. -/
structure Provider where
  get_class_hash_at : FieldElement → Except ProviderError FieldElement
  call_base : Except CainomeError FieldElement
  call_model : FieldElement → Except CainomeError (FieldElement × FieldElement)
  get_events_page : Option Nat → Nat → Except ProviderError EventsPage
  call_contract : FieldElement → Except ProviderError (List FieldElement)

/-- `WORLD_CONTRACT_NAME` from `manifest.rs`. -/
def WORLD_CONTRACT_NAME : String := "dojo::world::world"

/-- `BASE_CONTRACT_NAME` from `manifest.rs`. -/
def BASE_CONTRACT_NAME : String := "dojo::base::base"

/-- `RESOURCE_METADATA_CONTRACT_NAME` from `manifest.rs`. -/
def RESOURCE_METADATA_CONTRACT_NAME : String := "dojo::resource_metadata::resource_metadata"

/-- `RESOURCE_METADATA_MODEL_NAME` from `manifest.rs`, as the field element
the hex string denotes. -/
def RESOURCE_METADATA_MODEL_NAME : FieldElement := 0x5265736f757263654d65746164617461

/-- `get_remote_models_and_contracts` from `manifest.rs`: fetch and classify
the events, build the model map and the contract list, then run the
name-resolution pass. -/
def get_remote_models_and_contracts (sel : Selectors) (p : Provider) (fuel : Nat) :
    Outcome ((String → Option FieldElement) × List Contract) :=
  match (get_events p.get_events_page fuel).1 with
  | .ok events =>
    let buckets := classify sel events
    match parse_models_events buckets.1 with
    | none => .panicked
    | some models =>
      match parse_contracts_events buckets.2.1 buckets.2.2 with
      | none => .panicked
      | some contracts =>
        match fetch_contract_names p.call_contract contracts with
        | .ok named => .ok (models, named)
        | .err e => .err e
        | .panicked => .panicked
        | .fuelOut => .fuelOut
  | .err e => .err e
  | .panicked => .panicked
  | .fuelOut => .fuelOut

/-- `Manifest` from `manifest.rs`.  The models are carried as the
reconstructed name → class-hash mapping (see `parse_models_events`). -/
structure Manifest where
  world : Contract
  base : Class
  resource_metadata : Contract
  contracts : List Contract
  models : String → Option FieldElement

/-- `Manifest::load_from_remote` from `manifest.rs`: the bootstrap reads
(with the `ContractNotFound` remap to `RemoteWorldNotFound`), the event
replay, and the final assembly of the snapshot. -/
def load_from_remote (sel : Selectors) (p : Provider)
    (world_address : FieldElement) (fuel : Nat) : Outcome Manifest :=
  match p.get_class_hash_at world_address with
  | .error (.starknetError .contractNotFound) => .err .remoteWorldNotFound
  | .error e => .err (.provider e)
  | .ok world_class_hash =>
    match p.call_base with
    | .error e => .err (.contractRead e)
    | .ok base_class_hash =>
      match p.call_model RESOURCE_METADATA_MODEL_NAME with
      | .error e => .err (.contractRead e)
      | .ok (rm_class_hash, rm_addr_raw) =>
        let rm_address : Option FieldElement :=
          if rm_addr_raw = 0 then none else some rm_addr_raw
        match get_remote_models_and_contracts sel p fuel with
        | .ok mc =>
          .ok { world := { name := WORLD_CONTRACT_NAME
                         , class_hash := world_class_hash
                         , address := some world_address }
              , base := { name := BASE_CONTRACT_NAME
                        , class_hash := base_class_hash }
              , resource_metadata := { name := RESOURCE_METADATA_CONTRACT_NAME
                                     , class_hash := rm_class_hash
                                     , address := rm_address }
              , contracts := mc.2
              , models := mc.1 }
        | .err e => .err e
        | .panicked => .panicked
        | .fuelOut => .fuelOut

/-!
### Helper layer: reference characterizations of the folds

The following definitions restate the per-address content of the upgrade
reduction as plain list functions; the lemmas connect them to the embedded
folds above and are shared by the claim theorems.
-/

/-- One comparison step of the latest-upgrade reduction, on the optional
`(block, class_hash)` entry recorded for one address. -/
def upg_step (acc : Option (Nat × FieldElement)) (p : Nat × FieldElement) :
    Option (Nat × FieldElement) :=
  match acc with
  | some (current_block, current_class_hash) =>
    if current_block < p.1 then some p else some (current_block, current_class_hash)
  | none => some p

/-- The latest-upgrade reduction on the per-address projection. -/
def upg_reduce (acc : Option (Nat × FieldElement)) (l : List (Nat × FieldElement)) :
    Option (Nat × FieldElement) :=
  l.foldl upg_step acc

/-- The `(block, class_hash)` pairs that the upgrade events contribute for a
given address: events with well-formed data, that address, and a present
block number, in order. -/
def upg_entries (a : FieldElement) (events : List EmittedEvent) :
    List (Nat × FieldElement) :=
  events.filterMap (fun e =>
    match parse_upgraded_event e, e.block_number with
    | some (class_hash, address), some n =>
      if address = a then some (n, class_hash) else none
    | _, _ => none)

theorem upg_entries_nil (a : FieldElement) : upg_entries a [] = [] := rfl

theorem upg_reduce_nil (acc : Option (Nat × FieldElement)) :
    upg_reduce acc [] = acc := rfl

theorem upg_reduce_cons (acc : Option (Nat × FieldElement)) (p : Nat × FieldElement)
    (l : List (Nat × FieldElement)) :
    upg_reduce acc (p :: l) = upg_reduce (upg_step acc p) l := rfl

theorem upg_reduce_append (acc : Option (Nat × FieldElement))
    (l1 l2 : List (Nat × FieldElement)) :
    upg_reduce acc (l1 ++ l2) = upg_reduce (upg_reduce acc l1) l2 :=
  List.foldl_append _ _ _ _

theorem upg_step_some (q : Nat × FieldElement) (p : Nat × FieldElement) :
    upg_step (some q) p = some (if q.1 < p.1 then p else q) := by
  cases q with
  | mk cb cc => simp only [upg_step]; split <;> rfl

/-- The reduction started from a present entry never becomes absent. -/
theorem upg_reduce_isSome (l : List (Nat × FieldElement)) :
    ∀ q, (upg_reduce (some q) l).isSome := by
  induction l with
  | nil => intro q; rfl
  | cons p l ih =>
    intro q
    rw [upg_reduce_cons, upg_step_some]
    exact ih _

/-- Soundness of the reduction result: it is one of the entries (or the
start value), and its block number bounds every entry and the start value. -/
theorem upg_reduce_spec (l : List (Nat × FieldElement)) :
    ∀ acc b c, upg_reduce acc l = some (b, c) →
      ((b, c) ∈ l ∨ acc = some (b, c)) ∧ (∀ p ∈ l, p.1 ≤ b) ∧
        (∀ q, acc = some q → q.1 ≤ b) := by
  induction l with
  | nil =>
    intro acc b c h
    rw [upg_reduce_nil] at h
    exact ⟨Or.inr h, by simp, fun q hq => by rw [h] at hq; cases hq; exact le_refl _⟩
  | cons p l ih =>
    intro acc b c h
    rw [upg_reduce_cons] at h
    obtain ⟨hmem, hbound, hacc⟩ := ih (upg_step acc p) b c h
    have hstep : ∀ q, upg_step acc p = some q → q.1 ≤ b := hacc
    have hp : p.1 ≤ b := by
      cases hacc' : acc with
      | none => exact hstep p (by simp [upg_step, hacc'])
      | some q =>
        rw [hacc', upg_step_some] at hstep
        by_cases hlt : q.1 < p.1
        · exact hstep _ (by rw [if_pos hlt])
        · exact le_trans (le_of_not_lt hlt) (hstep _ (by rw [if_neg hlt]))
    refine ⟨?_, ?_, ?_⟩
    · rcases hmem with hm | hm
      · exact Or.inl (List.mem_cons_of_mem _ hm)
      · cases hacc' : acc with
        | none =>
          rw [hacc'] at hm
          simp only [upg_step] at hm
          cases hm
          exact Or.inl (List.mem_cons_self _ _)
        | some q =>
          rw [hacc', upg_step_some] at hm
          by_cases hlt : q.1 < p.1
          · rw [if_pos hlt] at hm
            cases hm
            exact Or.inl (List.mem_cons_self _ _)
          · rw [if_neg hlt] at hm
            exact Or.inr hm
    · intro p' hp'
      rcases List.mem_cons.mp hp' with rfl | hm
      · exact hp
      · exact hbound _ hm
    · intro q hq
      cases hq
      by_cases hlt : q.1 < p.1
      · exact le_trans (le_of_lt hlt) hp
      · exact hstep q (by rw [upg_step_some, if_neg hlt])

/-- An entry at the maximal block number is kept through the rest of the
reduction. -/
theorem upg_reduce_keep_max (l : List (Nat × FieldElement)) :
    ∀ n c, (∀ p ∈ l, p.1 ≤ n) → upg_reduce (some (n, c)) l = some (n, c) := by
  induction l with
  | nil => intro n c _; rfl
  | cons p l ih =>
    intro n c hb
    rw [upg_reduce_cons, upg_step_some,
      if_neg (not_lt_of_le (hb p (List.mem_cons_self _ _)))]
    exact ih n c (fun p' hp' => hb p' (List.mem_cons_of_mem _ hp'))

/-- First-at-the-maximum wins: if every earlier entry has a strictly smaller
block number and every later one is no larger, the reduction returns the
marked entry. -/
theorem upg_reduce_first_max (pre : List (Nat × FieldElement)) (n : Nat)
    (c : FieldElement) (post : List (Nat × FieldElement))
    (hpre : ∀ p ∈ pre, p.1 < n) (hpost : ∀ p ∈ post, p.1 ≤ n) :
    upg_reduce none (pre ++ (n, c) :: post) = some (n, c) := by
  rw [upg_reduce_append]
  cases hr : upg_reduce none pre with
  | none =>
    rw [upg_reduce_cons]
    simp only [upg_step]
    exact upg_reduce_keep_max post n c hpost
  | some q =>
    obtain ⟨b, cc⟩ := q
    obtain ⟨hmem, -, -⟩ := upg_reduce_spec pre none b cc hr
    have hb : b < n := by
      rcases hmem with hm | hm
      · exact hpre _ hm
      · cases hm
    rw [upg_reduce_cons, upg_step_some, if_pos hb]
    exact upg_reduce_keep_max post n c hpost

theorem retain_fold_append (es1 es2 : List EmittedEvent) :
    ∀ m0, retain_fold m0 (es1 ++ es2) =
      match retain_fold m0 es1 with
      | some m => retain_fold m es2
      | none => none := by
  induction es1 with
  | nil => intro m0; rfl
  | cons e es1 ih =>
    intro m0
    show retain_fold m0 (e :: (es1 ++ es2)) = _
    simp only [retain_fold]
    cases retain_step m0 e with
    | none => rfl
    | some m' => exact ih m'

/-- The reduction map that `retain_fold` computes, read at any single
address, is the plain per-address reduction of that address's entries. -/
theorem retain_fold_char (es : List EmittedEvent) :
    ∀ m0 m, retain_fold m0 es = some m →
      ∀ a, m a = upg_reduce (m0 a) (upg_entries a es) := by
  induction es with
  | nil =>
    intro m0 m h a
    cases h
    rfl
  | cons e es ih =>
    intro m0 m h a
    simp only [retain_fold] at h
    cases hp : parse_upgraded_event e with
    | none => rw [retain_step, hp] at h; cases h
    | some pr =>
      obtain ⟨class_hash, address⟩ := pr
      cases hb : e.block_number with
      | none =>
        rw [retain_step, hp, hb] at h
        have hent : upg_entries a (e :: es) = upg_entries a es := by
          simp only [upg_entries, List.filterMap_cons, hp, hb]
        rw [hent]
        exact ih m0 m h a
      | some num =>
        rw [retain_step, hp, hb] at h
        by_cases ha : address = a
        · subst ha
          have hent : upg_entries address (e :: es) =
              (num, class_hash) :: upg_entries address es := by
            simp [upg_entries, List.filterMap_cons, hp, hb]
          rw [hent, upg_reduce_cons]
          have := ih _ m h address
          rw [this, if_pos rfl]
          congr 1
        · have hent : upg_entries a (e :: es) = upg_entries a es := by
            simp [upg_entries, List.filterMap_cons, hp, hb, if_neg ha]
          rw [hent]
          have := ih _ m h a
          rw [this, if_neg (fun hc => ha hc.symm)]

/-- Dropping the upgrade events that carry no block number does not change
the reduction, provided their payloads are well-formed (so the Rust code
would not have panicked on them either). -/
theorem retain_fold_filter (es : List EmittedEvent)
    (hwf : ∀ e ∈ es, (parse_upgraded_event e).isSome) :
    ∀ m0, retain_fold m0 (es.filter (fun e => e.block_number.isSome)) =
      retain_fold m0 es := by
  induction es with
  | nil => intro m0; rfl
  | cons e es ih =>
    intro m0
    have hwe : (parse_upgraded_event e).isSome := hwf e (List.mem_cons_self _ _)
    have hwf' : ∀ e' ∈ es, (parse_upgraded_event e').isSome :=
      fun e' h' => hwf e' (List.mem_cons_of_mem _ h')
    cases hp : parse_upgraded_event e with
    | none => rw [hp] at hwe; cases hwe
    | some pr =>
      obtain ⟨class_hash, address⟩ := pr
      cases hb : e.block_number with
      | none =>
        have : (e :: es).filter (fun e => e.block_number.isSome) =
            es.filter (fun e => e.block_number.isSome) := by
          simp [List.filter_cons, hb]
        rw [this]
        show _ = retain_fold m0 (e :: es)
        simp only [retain_fold, retain_step, hp, hb]
        exact ih hwf' m0
      | some num =>
        have : (e :: es).filter (fun e => e.block_number.isSome) =
            e :: es.filter (fun e => e.block_number.isSome) := by
          simp [List.filter_cons, hb]
        rw [this]
        show retain_fold m0 (e :: _) = retain_fold m0 (e :: es)
        simp only [retain_fold]
        cases retain_step m0 e with
        | none => rfl
        | some m' => exact ih hwf' m'

/-- `retain_fold` succeeds exactly when every event's payload parses. -/
theorem retain_fold_total (es : List EmittedEvent)
    (hwf : ∀ e ∈ es, (parse_upgraded_event e).isSome) :
    ∀ m0, ∃ m, retain_fold m0 es = some m := by
  induction es with
  | nil => intro m0; exact ⟨m0, rfl⟩
  | cons e es ih =>
    intro m0
    have hwe := hwf e (List.mem_cons_self _ _)
    cases hp : parse_upgraded_event e with
    | none => rw [hp] at hwe; cases hwe
    | some pr =>
      obtain ⟨class_hash, address⟩ := pr
      have ih' := ih (fun e' h' => hwf e' (List.mem_cons_of_mem _ h'))
      cases hb : e.block_number with
      | none =>
        obtain ⟨m, hm⟩ := ih' m0
        exact ⟨m, by simpa only [retain_fold, retain_step, hp, hb] using hm⟩
      | some num =>
        obtain ⟨m, hm⟩ := ih' _
        exact ⟨m, by simp only [retain_fold, retain_step, hp, hb]; exact hm⟩

theorem models_fold_append (es1 es2 : List EmittedEvent) :
    ∀ m0, models_fold m0 (es1 ++ es2) =
      match models_fold m0 es1 with
      | some m => models_fold m es2
      | none => none := by
  induction es1 with
  | nil => intro m0; rfl
  | cons e es1 ih =>
    intro m0
    show models_fold m0 (e :: (es1 ++ es2)) = _
    simp only [models_fold]
    cases models_step m0 e with
    | none => rfl
    | some m' => exact ih m'

/-- Pointwise characterization of the deployment map: the output has one
contract per deployment event, in order. -/
theorem map_deployed_spec (upgradeds : FieldElement → Option FieldElement) :
    ∀ ds out, map_deployed upgradeds ds = some out →
      out.length = ds.length ∧
      ∀ i (h1 : i < ds.length) (h2 : i < out.length),
        deploy_to_contract upgradeds (ds.get ⟨i, h1⟩) = some (out.get ⟨i, h2⟩) := by
  intro ds
  induction ds with
  | nil =>
    intro out h
    cases h
    exact ⟨rfl, fun i h1 => absurd h1 (Nat.not_lt_zero i)⟩
  | cons e ds ih =>
    intro out h
    simp only [map_deployed] at h
    cases hc : deploy_to_contract upgradeds e with
    | none => rw [hc] at h; cases h
    | some c =>
      rw [hc] at h
      cases hrest : map_deployed upgradeds ds with
      | none => rw [hrest] at h; cases h
      | some rest =>
        rw [hrest] at h
        simp only [Option.map_some] at h
        obtain ⟨hlen, hidx⟩ := ih rest hrest
        cases h
        refine ⟨by simp [hlen], ?_⟩
        intro i h1 h2
        cases i with
        | zero => exact hc
        | succ j =>
          exact hidx j (Nat.lt_of_succ_lt_succ h1) (Nat.lt_of_succ_lt_succ h2)

/-- The classification fold, from an arbitrary bucket accumulator, appends
exactly the filtered sub-sequences (when the three signatures are pairwise
distinct, as the actual keccak hashes of the three event names are). -/
theorem classify_foldl (sel : Selectors)
    (h12 : sel.model_registered ≠ sel.contract_deployed)
    (h13 : sel.model_registered ≠ sel.contract_upgraded)
    (h23 : sel.contract_deployed ≠ sel.contract_upgraded) :
    ∀ (events : List EmittedEvent)
      (b : List EmittedEvent × List EmittedEvent × List EmittedEvent),
      events.foldl (classify_step sel) b =
        (b.1 ++ events.filter (fun e => decide (e.keys.head? = some sel.model_registered)),
         b.2.1 ++ events.filter (fun e => decide (e.keys.head? = some sel.contract_deployed)),
         b.2.2 ++ events.filter (fun e => decide (e.keys.head? = some sel.contract_upgraded))) := by
  intro events
  induction events with
  | nil => intro b; simp
  | cons e es ih =>
    intro b
    rw [List.foldl_cons]
    cases hk : e.keys.head? with
    | none =>
      have hstep : classify_step sel b e = b := by
        simp [classify_step, hk]
      rw [hstep, ih]
      simp [List.filter_cons, hk]
    | some k =>
      by_cases h1 : k = sel.model_registered
      · subst h1
        have hstep : classify_step sel b e = (b.1 ++ [e], b.2.1, b.2.2) := by
          simp [classify_step, hk]
        rw [hstep, ih]
        simp [List.filter_cons, hk, Ne.symm h12, Ne.symm h13, h12, h13]
      · by_cases h2 : k = sel.contract_deployed
        · subst h2
          have hstep : classify_step sel b e = (b.1, b.2.1 ++ [e], b.2.2) := by
            simp [classify_step, hk, h1]
          rw [hstep, ih]
          simp [List.filter_cons, hk, h1, Ne.symm h23, h23]
        · by_cases h3 : k = sel.contract_upgraded
          · subst h3
            have hstep : classify_step sel b e = (b.1, b.2.1, b.2.2 ++ [e]) := by
              simp [classify_step, hk, h1, h2]
            rw [hstep, ih]
            simp [List.filter_cons, hk, h1, h2]
          · have hstep : classify_step sel b e = b := by
              simp [classify_step, hk, h1, h2, h3]
            rw [hstep, ih]
            simp [List.filter_cons, hk, h1, h2, h3]

/-- The continuation token the fetcher hands to its `i`-th call, for a run
whose `i`-th response is `pages[i]`: the starting token for call 0, then
each previous response's token. -/
def chain_token_from (tok : Option Nat) (pages : List EventsPage) : Nat → Option Nat
  | 0 => tok
  | i + 1 =>
    match pages.get? i with
    | some p => p.continuation_token
    | none => none

theorem chain_token_from_cons (tok : Option Nat) (p : EventsPage)
    (ps : List EventsPage) (i : Nat) :
    chain_token_from tok (p :: ps) (i + 1) =
      chain_token_from p.continuation_token ps i := by
  cases i with
  | zero => rfl
  | succ j => rfl

/-- Core pagination lemma: a run of `N` well-chained responses, the first
`N-1` with a present token and the last with an absent one, makes the loop
return the concatenation of the pages' events and issue exactly the `N`
calls with the chained tokens, each at the default chunk size. -/
theorem get_events_loop_pages (src : Option Nat → Nat → Except ProviderError EventsPage) :
    ∀ (pages : List EventsPage) (tok : Option Nat),
      pages ≠ [] →
      (∀ i (h : i < pages.length),
        src (chain_token_from tok pages i) DEFAULT_CHUNK_SIZE = .ok (pages.get ⟨i, h⟩)) →
      (∀ i p, pages.get? i = some p → i + 1 < pages.length →
        p.continuation_token ≠ none) →
      (∀ p, pages.get? (pages.length - 1) = some p → p.continuation_token = none) →
      get_events_loop src pages.length tok =
        (.ok (pages.map (fun p => p.events)).flatten,
         (List.range pages.length).map
           (fun i => (chain_token_from tok pages i, DEFAULT_CHUNK_SIZE))) := by
  intro pages
  induction pages with
  | nil => intro tok hne _ _ _; exact absurd rfl hne
  | cons p ps ih =>
    intro tok _ hresp hmid hlast
    have h0 : src tok DEFAULT_CHUNK_SIZE = .ok p := by
      have := hresp 0 (Nat.succ_pos _)
      simpa [chain_token_from] using this
    cases hps : ps with
    | nil =>
      subst hps
      have hpt : p.continuation_token = none := hlast p rfl
      show get_events_loop src (0 + 1) tok = _
      simp only [get_events_loop, h0, hpt]
      refine Prod.ext ?_ ?_
      · simp
      · rfl
    | cons q ps' =>
      subst hps
      have hsome := hmid 0 p rfl (by simp)
      have hpt : ∃ t, p.continuation_token = some t := by
        cases hx : p.continuation_token with
        | none => exact absurd hx hsome
        | some t => exact ⟨t, rfl⟩
      obtain ⟨t, ht⟩ := hpt
      have hresp' : ∀ i (h : i < (q :: ps').length),
          src (chain_token_from (some t) (q :: ps') i) DEFAULT_CHUNK_SIZE =
            .ok ((q :: ps').get ⟨i, h⟩) := by
        intro i h
        have := hresp (i + 1) (Nat.succ_lt_succ h)
        rw [chain_token_from_cons, ht] at this
        exact this
      have hmid' : ∀ i pg, (q :: ps').get? i = some pg →
          i + 1 < (q :: ps').length → pg.continuation_token ≠ none := by
        intro i pg hi hlt
        exact hmid (i + 1) pg hi (Nat.succ_lt_succ hlt)
      have hlast' : ∀ pg, (q :: ps').get? ((q :: ps').length - 1) = some pg →
          pg.continuation_token = none := by
        intro pg hpg
        exact hlast pg hpg
      have ihh := ih (some t) (by simp) hresp' hmid' hlast'
      show get_events_loop src ((q :: ps').length + 1) tok = _
      rw [get_events_loop, h0]
      simp only [ht, ihh]
      refine Prod.ext ?_ ?_
      · simp
      · show (tok, DEFAULT_CHUNK_SIZE) ::
            List.map (fun i => (chain_token_from (some t) (q :: ps') i, DEFAULT_CHUNK_SIZE))
              (List.range (q :: ps').length) =
          List.map (fun i => (chain_token_from tok (p :: q :: ps') i, DEFAULT_CHUNK_SIZE))
            (List.range (p :: q :: ps').length)
        rw [show (p :: q :: ps').length = (q :: ps').length + 1 from rfl,
          List.range_succ_eq_map, List.map_cons, List.map_map]
        refine congrArg₂ List.cons rfl ?_
        refine List.map_congr_left ?_
        intro i _
        show (chain_token_from (some t) (q :: ps') i, DEFAULT_CHUNK_SIZE) =
          (chain_token_from tok (p :: q :: ps') (i + 1), DEFAULT_CHUNK_SIZE)
        rw [chain_token_from_cons, ht]

/-- A successful name-resolution pass names every contract by its own call's
decoded result and changes nothing else about it. -/
theorem fetch_contract_names_ok
    (call : FieldElement → Except ProviderError (List FieldElement)) :
    ∀ cs out, fetch_contract_names call cs = .ok out →
      out.length = cs.length ∧
      ∀ i (h1 : i < cs.length) (h2 : i < out.length),
        ∃ a, (cs.get ⟨i, h1⟩).address = some a ∧
          resolve_name (call a) = .ok ((out.get ⟨i, h2⟩).name) ∧
          out.get ⟨i, h2⟩ = set_name (cs.get ⟨i, h1⟩) ((out.get ⟨i, h2⟩).name) := by
  intro cs
  induction cs with
  | nil =>
    intro out h
    cases h
    exact ⟨rfl, fun i h1 => absurd h1 (Nat.not_lt_zero i)⟩
  | cons c cs ih =>
    intro out h
    cases ha : c.address with
    | none =>
      simp only [fetch_contract_names, ha] at h
      exact Outcome.noConfusion h
    | some a =>
      cases hr : resolve_name (call a) with
      | ok n =>
        cases hrest : fetch_contract_names call cs with
        | ok rest =>
          simp only [fetch_contract_names, ha, hr, hrest, Outcome.ok.injEq] at h
          obtain ⟨hlen, hidx⟩ := ih rest hrest
          subst h
          refine ⟨by simp [hlen], ?_⟩
          intro i h1 h2
          cases i with
          | zero => exact ⟨a, ha, hr, rfl⟩
          | succ j =>
            exact hidx j (Nat.lt_of_succ_lt_succ h1) (Nat.lt_of_succ_lt_succ h2)
        | err e =>
          simp only [fetch_contract_names, ha, hr, hrest] at h
          exact Outcome.noConfusion h
        | panicked =>
          simp only [fetch_contract_names, ha, hr, hrest] at h
          exact Outcome.noConfusion h
        | fuelOut =>
          simp only [fetch_contract_names, ha, hr, hrest] at h
          exact Outcome.noConfusion h
      | err e =>
        simp only [fetch_contract_names, ha, hr] at h
        exact Outcome.noConfusion h
      | panicked =>
        simp only [fetch_contract_names, ha, hr] at h
        exact Outcome.noConfusion h
      | fuelOut =>
        simp only [fetch_contract_names, ha, hr] at h
        exact Outcome.noConfusion h

/-- When every contract before some position resolves successfully and the
contract at that position resolves to an error, the whole name-resolution
pass returns that error. -/
theorem fetch_contract_names_err
    (call : FieldElement → Except ProviderError (List FieldElement)) :
    ∀ (pre : List Contract) (c : Contract) (post : List Contract)
      (a : FieldElement) (e : ManifestError),
      (∀ c' ∈ pre, ∃ a' n, c'.address = some a' ∧ resolve_name (call a') = .ok n) →
      c.address = some a → resolve_name (call a) = .err e →
      fetch_contract_names call (pre ++ c :: post) = .err e := by
  intro pre
  induction pre with
  | nil =>
    intro c post a e _ ha hr
    simp only [List.nil_append, fetch_contract_names, ha, hr]
  | cons c' pre ih =>
    intro c post a e hpre ha hr
    obtain ⟨a', n, ha', hr'⟩ := hpre c' (List.mem_cons_self _ _)
    have htail := ih c post a e
      (fun c'' h'' => hpre c'' (List.mem_cons_of_mem _ h'')) ha hr
    show fetch_contract_names call (c' :: (pre ++ c :: post)) = .err e
    simp only [fetch_contract_names, ha', hr', htail]

/-- The single resolution step never panics when a successful call is
guaranteed to return a non-empty result. -/
theorem resolve_name_no_panic (r : Except ProviderError (List FieldElement))
    (hr : ∀ res, r = .ok res → res ≠ []) :
    resolve_name r ≠ .panicked := by
  cases r with
  | ok res =>
    cases res with
    | nil => exact absurd rfl (hr [] rfl)
    | cons f rest =>
      simp only [resolve_name]
      cases parse_cairo_short_string f <;> simp
  | error e =>
    cases e with
    | starknetError se => cases se <;> simp [resolve_name]
    | otherProvider code => simp [resolve_name]

/-- The name-resolution pass never panics when every contract has an
address and every successful call returns a non-empty result. -/
theorem fetch_contract_names_no_panic
    (call : FieldElement → Except ProviderError (List FieldElement)) :
    ∀ cs, (∀ c ∈ cs, (c.address).isSome) →
      (∀ a res, call a = .ok res → res ≠ []) →
      fetch_contract_names call cs ≠ .panicked := by
  intro cs
  induction cs with
  | nil =>
    intro _ _
    simp [fetch_contract_names]
  | cons c cs ih =>
    intro haddr hcall
    have hc := haddr c (List.mem_cons_self _ _)
    cases ha : c.address with
    | none => rw [ha] at hc; cases hc
    | some a =>
      have hres := resolve_name_no_panic (call a) (hcall a)
      simp only [fetch_contract_names, ha]
      cases hr : resolve_name (call a) with
      | ok n =>
        have htail := ih (fun c' h' => haddr c' (List.mem_cons_of_mem _ h')) hcall
        cases hrest : fetch_contract_names call cs <;> simp_all
      | err e => simp
      | panicked => exact absurd hr hres
      | fuelOut => simp

theorem parse_upgraded_event_eq_some (e : EmittedEvent) (ch addr : FieldElement)
    (h : parse_upgraded_event e = some (ch, addr)) :
    ∃ rest, e.data = ch :: addr :: rest := by
  cases hd : e.data with
  | nil => rw [parse_upgraded_event, hd] at h; cases h
  | cons x tl =>
    cases tl with
    | nil => rw [parse_upgraded_event, hd] at h; cases h
    | cons y rest =>
      rw [parse_upgraded_event, hd] at h
      obtain ⟨h1, h2⟩ := Prod.mk.injEq _ _ _ _ ▸ Option.some.inj h
      exact ⟨rest, by rw [h1, h2]⟩


theorem deploy_to_contract_some (u : FieldElement → Option FieldElement)
    (e : EmittedEvent) (c : Contract)
    (h : deploy_to_contract u e = some c) :
    ∃ salt ch addr rest, e.data = salt :: ch :: addr :: rest ∧
      c.address = some addr ∧
      c.class_hash = (match u addr with | some x => x | none => ch) ∧
      c.name = "" := by
  cases hd : e.data with
  | nil => rw [deploy_to_contract, parse_deployed_event, hd] at h; cases h
  | cons x tl =>
    cases tl with
    | nil => rw [deploy_to_contract, parse_deployed_event, hd] at h; cases h
    | cons y tl2 =>
      cases tl2 with
      | nil => rw [deploy_to_contract, parse_deployed_event, hd] at h; cases h
      | cons z rest =>
        rw [deploy_to_contract, parse_deployed_event, hd] at h
        refine ⟨x, y, z, rest, rfl, ?_, ?_, ?_⟩ <;> rw [← Option.some.inj h]

/-- C1: For every finite sequence of deployment and upgrade events for a
single address, the `Contract` record produced by `parse_contracts_events`
has `class_hash` equal to the class hash of an upgrade event whose block
number is the maximum among that address's upgrade events that carry a block
number; if no upgrade event carries a block number, the class hash is the
deployment event's; and upgrade events with an absent block number never
influence the result at any position (filtering them out yields the same
output). -/
theorem c1_single_address_latest_upgrade_wins
    (salt dch a : FieldElement) (dkeys : List FieldElement) (dbn : Option Nat)
    (us : List EmittedEvent)
    (hwf : ∀ e ∈ us, ∃ ch rest, e.data = ch :: a :: rest)
    (out : List Contract)
    (hout : parse_contracts_events [⟨dkeys, [salt, dch, a], dbn⟩] us = some out) :
    ∃ c, out = [c] ∧ c.address = some a ∧
      ((∀ e ∈ us, e.block_number = none) → c.class_hash = dch) ∧
      (∀ M, (∃ e ∈ us, e.block_number = some M) →
        (∀ e ∈ us, ∀ n, e.block_number = some n → n ≤ M) →
        ∃ e ∈ us, e.block_number = some M ∧ e.data.head? = some c.class_hash) ∧
      parse_contracts_events [⟨dkeys, [salt, dch, a], dbn⟩]
        (us.filter (fun e => e.block_number.isSome)) = some out := by
  have hwf' : ∀ e ∈ us, (parse_upgraded_event e).isSome := by
    intro e he
    obtain ⟨ch, rest, hdata⟩ := hwf e he
    simp [parse_upgraded_event, hdata]
  cases hres : retain_only_latest_upgrade_events us with
  | none =>
    simp only [parse_contracts_events, hres] at hout
    exact Option.noConfusion hout
  | some upg =>
    simp only [parse_contracts_events, hres] at hout
    cases hm : retain_fold (fun _ => none) us with
    | none => simp [retain_only_latest_upgrade_events, hm] at hres
    | some m =>
      have hupg : (fun x => (m x).map Prod.snd) = upg := by
        have h2 : retain_only_latest_upgrade_events us =
            some (fun x => (m x).map Prod.snd) := by
          rw [retain_only_latest_upgrade_events, hm]
          rfl
        exact Option.some.inj (h2.symm.trans hres)
      have hupga : upg a = (m a).map Prod.snd := by rw [← hupg]
      have hchar := retain_fold_char us (fun _ => none) m hm a
      have hmap : map_deployed upg [⟨dkeys, [salt, dch, a], dbn⟩] =
          some [({ address := some a
                 , class_hash := (match upg a with | some u => u | none => dch) } : Contract)] := rfl
      rw [hmap] at hout
      have hout2 := Option.some.inj hout
      subst hout2
      refine ⟨_, rfl, rfl, ?_, ?_, ?_⟩
      · intro hnone
        have hent : upg_entries a us = [] := by
          rw [upg_entries, List.filterMap_eq_nil_iff]
          intro e he
          obtain ⟨ch, rest, hdata⟩ := hwf e he
          simp [parse_upgraded_event, hdata, hnone e he]
        have hu : upg a = none := by
          rw [hupga, hchar, hent, upg_reduce_nil]
          rfl
        show (match upg a with | some u => u | none => dch) = dch
        rw [hu]
      · intro M hatt hbound
        obtain ⟨eM, heM, hbM⟩ := hatt
        obtain ⟨chM, restM, hdataM⟩ := hwf eM heM
        have hfM : (M, chM) ∈ upg_entries a us := by
          rw [upg_entries]
          refine List.mem_filterMap.mpr ⟨eM, heM, ?_⟩
          simp [parse_upgraded_event, hdataM, hbM]
        have hsome : (upg_reduce none (upg_entries a us)).isSome := by
          cases hent : upg_entries a us with
          | nil => rw [hent] at hfM; cases hfM
          | cons p l => rw [upg_reduce_cons]; exact upg_reduce_isSome l _
        obtain ⟨bc, hbc⟩ := Option.isSome_iff_exists.mp hsome
        obtain ⟨b, cc⟩ := bc
        obtain ⟨hmem, hbnd, -⟩ := upg_reduce_spec _ none b cc hbc
        have hmem' : (b, cc) ∈ upg_entries a us := by
          rcases hmem with h | h
          · exact h
          · cases h
        obtain ⟨e', he', hfe'⟩ := List.mem_filterMap.mp hmem'
        obtain ⟨ch', rest', hdata'⟩ := hwf e' he'
        have hpe' : parse_upgraded_event e' = some (ch', a) := by
          simp [parse_upgraded_event, hdata']
        rw [hpe'] at hfe'
        cases hb' : e'.block_number with
        | none => rw [hb'] at hfe'; cases hfe'
        | some n' =>
          rw [hb'] at hfe'
          have hfe2 : (n', ch') = (b, cc) := by simpa using hfe'
          obtain ⟨hn2, hch2⟩ := Prod.mk.inj hfe2
          subst hn2
          subst hch2
          have hbM' : n' ≤ M := hbound e' he' n' hb'
          have hMb : M ≤ n' := hbnd _ hfM
          have hMeq : n' = M := le_antisymm hbM' hMb
          subst hMeq
          refine ⟨e', he', hb', ?_⟩
          have hu : upg a = some ch' := by
            rw [hupga, hchar, hbc]
            rfl
          rw [hdata']
          show some ch' = some (match upg a with | some u => u | none => dch)
          rw [hu]
      · have hfilter := retain_fold_filter us hwf' (fun _ => none)
        rw [hm] at hfilter
        have hres2 : retain_only_latest_upgrade_events
            (us.filter (fun e => e.block_number.isSome)) = some upg := by
          rw [retain_only_latest_upgrade_events, hfilter]
          exact congrArg some hupg
        simp only [parse_contracts_events, hres2]
        exact hmap

/-- A concrete upgrade-event sequence for address `5`: blocks 3, absent, 9. -/
def c1_example_upgrades : List EmittedEvent :=
  [⟨[3], [11, 5], some 3⟩, ⟨[3], [12, 5], none⟩, ⟨[3], [13, 5], some 9⟩]

/-- Witness for C1 at a concrete input: one deployment of address `5` with
class hash `10`, upgrades at blocks 3 and 9 plus one without a block; the
reconciled class hash is `13`, the block-9 upgrade's. -/
theorem c1_single_address_latest_upgrade_wins_witness :
    ∃ c, [({ address := some 5, class_hash := 13 } : Contract)] = [c] ∧
      c.address = some 5 ∧
      ((∀ e ∈ c1_example_upgrades, e.block_number = none) → c.class_hash = 10) ∧
      (∀ M, (∃ e ∈ c1_example_upgrades, e.block_number = some M) →
        (∀ e ∈ c1_example_upgrades, ∀ n, e.block_number = some n → n ≤ M) →
        ∃ e ∈ c1_example_upgrades, e.block_number = some M ∧
          e.data.head? = some c.class_hash) ∧
      parse_contracts_events [⟨[3], [0, 10, 5], some 1⟩]
        (c1_example_upgrades.filter (fun e => e.block_number.isSome)) =
          some [({ address := some 5, class_hash := 13 } : Contract)] :=
  c1_single_address_latest_upgrade_wins 0 10 5 [3] (some 1) c1_example_upgrades
    (by
      intro e he
      fin_cases he
      · exact ⟨11, [], rfl⟩
      · exact ⟨12, [], rfl⟩
      · exact ⟨13, [], rfl⟩)
    [{ address := some 5, class_hash := 13 }] rfl

/-- C9: when an address has two or more upgrade events sharing the same
maximal block number, the reduced class hash is that of the first such event
in processing order: (i) if every earlier event for the address has a
strictly smaller block number and every later one is no larger, the
reduction records the marked event's class hash; (ii) the reducer replaces
the recorded entry only on a strictly greater block number — appending an
event whose block number is at most the recorded one leaves the whole
reduction map unchanged. -/
theorem c9_equal_max_block_first_event_wins :
    (∀ (pre post : List EmittedEvent) (e : EmittedEvent) (a : FieldElement)
       (n : Nat) (ch : FieldElement) (rest : List FieldElement),
       (∀ e' ∈ pre ++ e :: post, (parse_upgraded_event e').isSome) →
       e.data = ch :: a :: rest → e.block_number = some n →
       (∀ e' ∈ pre, ∀ ch' rest', e'.data = ch' :: a :: rest' →
         ∀ n', e'.block_number = some n' → n' < n) →
       (∀ e' ∈ post, ∀ ch' rest', e'.data = ch' :: a :: rest' →
         ∀ n', e'.block_number = some n' → n' ≤ n) →
       ∃ upg, retain_only_latest_upgrade_events (pre ++ e :: post) = some upg ∧
         upg a = some ch) ∧
    (∀ (us : List EmittedEvent) (m : FieldElement → Option (Nat × FieldElement))
       (e : EmittedEvent) (a : FieldElement) (n : Nat) (ch : FieldElement)
       (rest : List FieldElement) (cb : Nat) (cc : FieldElement),
       retain_fold (fun _ => none) us = some m →
       e.data = ch :: a :: rest → e.block_number = some n →
       m a = some (cb, cc) → n ≤ cb →
       retain_fold (fun _ => none) (us ++ [e]) = some m) := by
  constructor
  · intro pre post e a n ch rest hwfall hdata hb hpre hpost
    obtain ⟨m, hm⟩ := retain_fold_total (pre ++ e :: post) hwfall (fun _ => none)
    have hchar := retain_fold_char (pre ++ e :: post) (fun _ => none) m hm a
    have hpe : parse_upgraded_event e = some (ch, a) := by
      simp [parse_upgraded_event, hdata]
    have hent : upg_entries a (pre ++ e :: post) =
        upg_entries a pre ++ (n, ch) :: upg_entries a post := by
      simp [upg_entries, List.filterMap_append, List.filterMap_cons, hpe, hb]
    have hpre' : ∀ p ∈ upg_entries a pre, p.1 < n := by
      intro p hp
      obtain ⟨e', he', hfe'⟩ := List.mem_filterMap.mp hp
      cases hpe' : parse_upgraded_event e' with
      | none => simp [hpe'] at hfe'
      | some pr =>
        obtain ⟨ch2, ad2⟩ := pr
        cases hb2 : e'.block_number with
        | none => simp [hpe', hb2] at hfe'
        | some n2 =>
          simp only [hpe', hb2] at hfe'
          by_cases had : ad2 = a
          · rw [if_pos had] at hfe'
            obtain rfl := Option.some.inj hfe'
            subst had
            obtain ⟨rest2, hdata2⟩ := parse_upgraded_event_eq_some e' ch2 ad2 hpe'
            exact hpre e' he' ch2 rest2 hdata2 n2 hb2
          · rw [if_neg had] at hfe'
            cases hfe'
    have hpost' : ∀ p ∈ upg_entries a post, p.1 ≤ n := by
      intro p hp
      obtain ⟨e', he', hfe'⟩ := List.mem_filterMap.mp hp
      cases hpe' : parse_upgraded_event e' with
      | none => simp [hpe'] at hfe'
      | some pr =>
        obtain ⟨ch2, ad2⟩ := pr
        cases hb2 : e'.block_number with
        | none => simp [hpe', hb2] at hfe'
        | some n2 =>
          simp only [hpe', hb2] at hfe'
          by_cases had : ad2 = a
          · rw [if_pos had] at hfe'
            obtain rfl := Option.some.inj hfe'
            subst had
            obtain ⟨rest2, hdata2⟩ := parse_upgraded_event_eq_some e' ch2 ad2 hpe'
            exact hpost e' he' ch2 rest2 hdata2 n2 hb2
          · rw [if_neg had] at hfe'
            cases hfe'
    have hred : upg_reduce none (upg_entries a (pre ++ e :: post)) = some (n, ch) := by
      rw [hent]
      exact upg_reduce_first_max _ n ch _ hpre' hpost'
    refine ⟨fun x => (m x).map Prod.snd, ?_, ?_⟩
    · rw [retain_only_latest_upgrade_events, hm]
      rfl
    · show (m a).map Prod.snd = some ch
      rw [hchar, hred]
      rfl
  · intro us m e a n ch rest cb cc hm hdata hb hma hle
    rw [retain_fold_append]
    simp only [hm]
    have hpe : parse_upgraded_event e = some (ch, a) := by
      simp [parse_upgraded_event, hdata]
    simp only [retain_fold, retain_step, hpe, hb]
    refine congrArg some (funext fun x => ?_)
    by_cases hx : x = a
    · rw [if_pos hx]
      simp only [hma]
      rw [if_neg (Nat.not_lt.mpr hle), hx, hma]
    · rw [if_neg hx]

/-- Witness for C9 at a concrete input: two upgrades of address `5`, both at
block 4 with class hashes 7 then 8; the reduction keeps class hash 7, and
appending the second (equal-block) event leaves the map unchanged. -/
theorem c9_equal_max_block_first_event_wins_witness :
    (∃ upg, retain_only_latest_upgrade_events
        ([] ++ (⟨[0], [7, 5], some 4⟩ : EmittedEvent) :: [⟨[0], [8, 5], some 4⟩]) =
          some upg ∧ upg 5 = some 7) ∧
    retain_fold (fun _ => none)
        ([(⟨[0], [7, 5], some 4⟩ : EmittedEvent)] ++ [⟨[0], [8, 5], some 4⟩]) =
      some (fun x => if x = 5 then some (4, 7) else none) := by
  constructor
  · refine c9_equal_max_block_first_event_wins.1 [] [⟨[0], [8, 5], some 4⟩]
      ⟨[0], [7, 5], some 4⟩ 5 4 7 [] ?_ rfl rfl ?_ ?_
    · intro e' he'
      fin_cases he' <;> rfl
    · intro e' he'
      cases he'
    · intro e' he'
      fin_cases he'
      intro ch' rest' hd n' hb'
      cases hb'
      exact le_refl 4
  · exact c9_equal_max_block_first_event_wins.2 [⟨[0], [7, 5], some 4⟩]
      (fun x => if x = 5 then some (4, 7) else none)
      ⟨[0], [8, 5], some 4⟩ 5 4 8 [] 4 7 rfl rfl rfl rfl (le_refl 4)

/-- C6: every `Contract` in the reconciler's output corresponds positionally
to exactly one deployment event and the output's length equals the number of
deployment events; an address that appears only in upgrade events and in no
deployment event produces no record. -/
theorem c6_deployment_is_only_entry_point
    (deployed upgraded : List EmittedEvent) (out : List Contract)
    (hout : parse_contracts_events deployed upgraded = some out) :
    out.length = deployed.length ∧
    (∀ i (h1 : i < deployed.length) (h2 : i < out.length),
      ∃ salt ch addr rest, (deployed.get ⟨i, h1⟩).data = salt :: ch :: addr :: rest ∧
        (out.get ⟨i, h2⟩).address = some addr) ∧
    (∀ a, (∀ e ∈ deployed, ∀ salt ch rest, e.data ≠ salt :: ch :: a :: rest) →
      ∀ c ∈ out, c.address ≠ some a) := by
  cases hres : retain_only_latest_upgrade_events upgraded with
  | none =>
    simp only [parse_contracts_events, hres] at hout
    exact Option.noConfusion hout
  | some upg =>
    simp only [parse_contracts_events, hres] at hout
    obtain ⟨hlen, hidx⟩ := map_deployed_spec upg deployed out hout
    refine ⟨hlen, ?_, ?_⟩
    · intro i h1 h2
      obtain ⟨salt, ch, addr, rest, hdata, haddr, -, -⟩ :=
        deploy_to_contract_some upg _ _ (hidx i h1 h2)
      exact ⟨salt, ch, addr, rest, hdata, haddr⟩
    · intro a hnot c hc hca
      obtain ⟨⟨i, h2⟩, hci⟩ := List.mem_iff_get.mp hc
      have h1 : i < deployed.length := hlen ▸ h2
      obtain ⟨salt, ch, addr, rest, hdata, haddr, -, -⟩ :=
        deploy_to_contract_some upg _ _ (hidx i h1 h2)
      rw [hci] at haddr
      have haa : addr = a := Option.some.inj (haddr.symm.trans hca)
      subst haa
      exact hnot (deployed.get ⟨i, h1⟩) (List.get_mem _ _ _) salt ch rest hdata

/-- Witness for C6 at a concrete input: one deployment of address 10 and an
upgrade of address 20 (which has no deployment); the output has exactly the
one deployed contract and no record for address 20. -/
theorem c6_deployment_is_only_entry_point_witness :
    ([({ address := some 10, class_hash := 1 } : Contract)]).length =
      [(⟨[2], [0, 1, 10], some 1⟩ : EmittedEvent)].length ∧
    (∀ i (h1 : i < [(⟨[2], [0, 1, 10], some 1⟩ : EmittedEvent)].length)
        (h2 : i < [({ address := some 10, class_hash := 1 } : Contract)].length),
      ∃ salt ch addr rest,
        ([(⟨[2], [0, 1, 10], some 1⟩ : EmittedEvent)].get ⟨i, h1⟩).data =
          salt :: ch :: addr :: rest ∧
        ([({ address := some 10, class_hash := 1 } : Contract)].get ⟨i, h2⟩).address =
          some addr) ∧
    (∀ a, (∀ e ∈ [(⟨[2], [0, 1, 10], some 1⟩ : EmittedEvent)],
        ∀ salt ch rest, e.data ≠ salt :: ch :: a :: rest) →
      ∀ c ∈ [({ address := some 10, class_hash := 1 } : Contract)],
        c.address ≠ some a) :=
  c6_deployment_is_only_entry_point
    [⟨[2], [0, 1, 10], some 1⟩] [⟨[3], [2, 20], some 5⟩]
    [{ address := some 10, class_hash := 1 }] rfl

/-- C2: one step of the model-registry fold over an arbitrary prefix: a new
name is inserted with the event's class hash; an existing entry is
overwritten exactly when its recorded class hash equals the event's
`prev_class_hash`, and otherwise the mapping is unchanged at every name. -/
theorem c2_registration_conditional_merge
    (es : List EmittedEvent) (m : String → Option FieldElement) (e : EmittedEvent)
    (class_hash prev name_felt : FieldElement) (model_name : String)
    (hm : parse_models_events es = some m)
    (hp : parse_model_registered e = some (class_hash, prev, name_felt))
    (hn : parse_cairo_short_string name_felt = some model_name) :
    ∃ m', parse_models_events (es ++ [e]) = some m' ∧
      (m model_name = none →
        m' model_name = some class_hash ∧ ∀ n, n ≠ model_name → m' n = m n) ∧
      (∀ current, m model_name = some current →
        (current = prev →
          m' model_name = some class_hash ∧ ∀ n, n ≠ model_name → m' n = m n) ∧
        (current ≠ prev → ∀ n, m' n = m n)) := by
  rw [parse_models_events] at hm
  have hstep : models_step m e = some (match m model_name with
      | some current =>
        if current = prev then
          (fun n => if n = model_name then some class_hash else m n)
        else m
      | none => fun n => if n = model_name then some class_hash else m n) := by
    simp only [models_step, hp, hn]
  have hfold : parse_models_events (es ++ [e]) = models_fold m [e] := by
    rw [parse_models_events, models_fold_append, hm]
  have hfold2 : models_fold m [e] = some (match m model_name with
      | some current =>
        if current = prev then
          (fun n => if n = model_name then some class_hash else m n)
        else m
      | none => fun n => if n = model_name then some class_hash else m n) := by
    simp only [models_fold, hstep]
  refine ⟨_, hfold.trans hfold2, ?_, ?_⟩
  · intro h0
    constructor
    · simp [h0]
    · intro n hn2
      simp [h0, hn2]
  · intro current hcur
    constructor
    · intro hce
      subst hce
      constructor
      · simp [hcur]
      · intro n hn2
        simp [hcur, hn2]
    · intro hce n
      simp [hcur, hce]

/-- Witness for C2 at a concrete input: the first registration of name
"Position" (packed as `0x506f736974696f6e`) with class hash 2 over the empty
prefix inserts `("Position", 2)`. -/
theorem c2_registration_conditional_merge_witness :
    ∃ m', parse_models_events ([] ++ [(⟨[1], [2, 0, 0x506f736974696f6e], some 1⟩ : EmittedEvent)]) = some m' ∧
      ((fun _ => none : String → Option FieldElement) "Position" = none →
        m' "Position" = some 2 ∧
          ∀ n, n ≠ "Position" → m' n = (fun _ => none : String → Option FieldElement) n) ∧
      (∀ current, (fun _ => none : String → Option FieldElement) "Position" = some current →
        (current = 0 →
          m' "Position" = some 2 ∧
            ∀ n, n ≠ "Position" → m' n = (fun _ => none : String → Option FieldElement) n) ∧
        (current ≠ 0 → ∀ n, m' n = (fun _ => none : String → Option FieldElement) n)) :=
  c2_registration_conditional_merge [] (fun _ => none)
    ⟨[1], [2, 0, 0x506f736974696f6e], some 1⟩ 2 0 0x506f736974696f6e "Position"
    rfl rfl (by decide)

/-- C7: event classification is a pure, order-preserving partition: with the
three signature hashes pairwise distinct (as the actual keccak hashes are),
each bucket is exactly the ordered sub-sequence of events whose first key
equals that bucket's signature, and events with no keys or an unknown first
key appear in no bucket. -/
theorem c7_classification_is_ordered_partition
    (sel : Selectors) (events : List EmittedEvent)
    (h12 : sel.model_registered ≠ sel.contract_deployed)
    (h13 : sel.model_registered ≠ sel.contract_upgraded)
    (h23 : sel.contract_deployed ≠ sel.contract_upgraded) :
    classify sel events =
      (events.filter (fun e => decide (e.keys.head? = some sel.model_registered)),
       events.filter (fun e => decide (e.keys.head? = some sel.contract_deployed)),
       events.filter (fun e => decide (e.keys.head? = some sel.contract_upgraded))) := by
  rw [classify, classify_foldl sel h12 h13 h23]
  simp

/-- Witness for C7 at a concrete input: six events with first keys
1, 2, 9, absent, 3, 1 against signatures (1, 2, 3). -/
theorem c7_classification_is_ordered_partition_witness :
    classify ⟨1, 2, 3⟩
        [⟨[1], [], none⟩, ⟨[2], [], none⟩, ⟨[9], [], none⟩,
         ⟨[], [], none⟩, ⟨[3], [], none⟩, ⟨[1], [5], none⟩] =
      ([⟨[1], [], none⟩, ⟨[2], [], none⟩, ⟨[9], [], none⟩,
        ⟨[], [], none⟩, ⟨[3], [], none⟩,
        (⟨[1], [5], none⟩ : EmittedEvent)].filter
          (fun e => decide (e.keys.head? = some (1 : FieldElement))),
       [⟨[1], [], none⟩, ⟨[2], [], none⟩, ⟨[9], [], none⟩,
        ⟨[], [], none⟩, ⟨[3], [], none⟩,
        (⟨[1], [5], none⟩ : EmittedEvent)].filter
          (fun e => decide (e.keys.head? = some (2 : FieldElement))),
       [⟨[1], [], none⟩, ⟨[2], [], none⟩, ⟨[9], [], none⟩,
        ⟨[], [], none⟩, ⟨[3], [], none⟩,
        (⟨[1], [5], none⟩ : EmittedEvent)].filter
          (fun e => decide (e.keys.head? = some (3 : FieldElement)))) :=
  c7_classification_is_ordered_partition ⟨1, 2, 3⟩
    [⟨[1], [], none⟩, ⟨[2], [], none⟩, ⟨[9], [], none⟩,
     ⟨[], [], none⟩, ⟨[3], [], none⟩, ⟨[1], [5], none⟩]
    (by decide) (by decide) (by decide)

/-- C5: a `ContractNotFound` error on the bootstrap class-hash lookup of the
world address is remapped to the distinguished `RemoteWorldNotFound`
failure; every other error from that lookup is propagated unchanged (wrapped
as a provider error). -/
theorem c5_bootstrap_contract_not_found_remap
    (sel : Selectors) (p : Provider) (w : FieldElement) (fuel : Nat) :
    (p.get_class_hash_at w = .error (.starknetError .contractNotFound) →
      load_from_remote sel p w fuel = .err .remoteWorldNotFound) ∧
    (∀ e, p.get_class_hash_at w = .error e →
      e ≠ .starknetError .contractNotFound →
      load_from_remote sel p w fuel = .err (.provider e)) := by
  constructor
  · intro h
    simp only [load_from_remote, h]
  · intro e h hne
    cases e with
    | starknetError se =>
      cases se with
      | contractNotFound => exact absurd rfl hne
      | contractError => simp only [load_from_remote, h]
      | otherStarknet code => simp only [load_from_remote, h]
    | otherProvider code => simp only [load_from_remote, h]

/-- A provider whose class-hash lookup reports `ContractNotFound`. -/
def c5_provider_not_found : Provider where
  get_class_hash_at := fun _ => .error (.starknetError .contractNotFound)
  call_base := .ok 8
  call_model := fun _ => .ok (9, 0)
  get_events_page := fun _ _ => .ok ⟨[], none⟩
  call_contract := fun _ => .ok [0]

/-- A provider whose class-hash lookup reports an unrelated transport
error. -/
def c5_provider_other_error : Provider where
  get_class_hash_at := fun _ => .error (.otherProvider 7)
  call_base := .ok 8
  call_model := fun _ => .ok (9, 0)
  get_events_page := fun _ _ => .ok ⟨[], none⟩
  call_contract := fun _ => .ok [0]

/-- Witness for C5 at concrete providers: `ContractNotFound` yields the
distinguished failure, an unrelated error is propagated unchanged. -/
theorem c5_bootstrap_contract_not_found_remap_witness :
    load_from_remote ⟨1, 2, 3⟩ c5_provider_not_found 9 1 = .err .remoteWorldNotFound ∧
    load_from_remote ⟨1, 2, 3⟩ c5_provider_other_error 9 1 =
      .err (.provider (.otherProvider 7)) :=
  ⟨(c5_bootstrap_contract_not_found_remap ⟨1, 2, 3⟩ c5_provider_not_found 9 1).1 rfl,
   (c5_bootstrap_contract_not_found_remap ⟨1, 2, 3⟩ c5_provider_other_error 9 1).2
     (.otherProvider 7) rfl (by decide)⟩

/-- C4: per-contract name resolution: a `ContractError` (execution reverted)
result resolves to the empty name; a successful call whose first field
element decodes as a short string `s` resolves to `s`; any other error from
the call aborts the whole pass with that error; and a successful pass names
every contract by its own call's decoded result, changing nothing else. -/
theorem c4_name_resolution_semantics :
    (resolve_name (.error (.starknetError .contractError)) = .ok "") ∧
    (∀ (f : FieldElement) (rest : List FieldElement) (s : String),
      parse_cairo_short_string f = some s →
      resolve_name (.ok (f :: rest)) = .ok s) ∧
    (∀ (call : FieldElement → Except ProviderError (List FieldElement))
       (pre : List Contract) (c : Contract) (post : List Contract)
       (a : FieldElement) (e : ManifestError),
      (∀ c' ∈ pre, ∃ a' n, c'.address = some a' ∧ resolve_name (call a') = .ok n) →
      c.address = some a → resolve_name (call a) = .err e →
      fetch_contract_names call (pre ++ c :: post) = .err e) ∧
    (∀ (call : FieldElement → Except ProviderError (List FieldElement))
       (cs out : List Contract),
      fetch_contract_names call cs = .ok out →
      out.length = cs.length ∧
      ∀ i (h1 : i < cs.length) (h2 : i < out.length),
        ∃ a, (cs.get ⟨i, h1⟩).address = some a ∧
          resolve_name (call a) = .ok ((out.get ⟨i, h2⟩).name) ∧
          out.get ⟨i, h2⟩ = set_name (cs.get ⟨i, h1⟩) ((out.get ⟨i, h2⟩).name)) := by
  refine ⟨rfl, ?_, ?_, ?_⟩
  · intro f rest s hs
    simp only [resolve_name, hs]
  · intro call pre c post a e hpre ha hr
    exact fetch_contract_names_err call pre c post a e hpre ha hr
  · intro call cs out h
    exact fetch_contract_names_ok call cs out h

/-- The concrete resolution source for the C4 witness: address 1 answers
with the packed string "Foo", every other address fails with an unrelated
transport error. -/
def c4_call : FieldElement → Except ProviderError (List FieldElement) :=
  fun a => if a = 1 then .ok [0x466f6f] else .error (.otherProvider 3)

/-- Witness for C4 at concrete inputs: a reverted call yields name `""`, the
field element `0x466f6f` decodes to name "Foo", an unrelated error at the
second contract aborts the pass with that error, and the successful
single-contract pass names it "Foo". -/
theorem c4_name_resolution_semantics_witness :
    (resolve_name (.error (.starknetError .contractError)) = .ok "") ∧
    (resolve_name (.ok [0x466f6f]) = .ok "Foo") ∧
    (fetch_contract_names c4_call
        ([{ address := some 1 }] ++ ({ address := some 2 } : Contract) :: []) =
      .err (.provider (.otherProvider 3))) ∧
    ([({ name := "Foo", address := some 1 } : Contract)].length =
        [({ address := some 1 } : Contract)].length ∧
      ∀ i (h1 : i < [({ address := some 1 } : Contract)].length)
          (h2 : i < [({ name := "Foo", address := some 1 } : Contract)].length),
        ∃ a, ([({ address := some 1 } : Contract)].get ⟨i, h1⟩).address = some a ∧
          resolve_name (c4_call a) =
            .ok (([({ name := "Foo", address := some 1 } : Contract)].get ⟨i, h2⟩).name) ∧
          [({ name := "Foo", address := some 1 } : Contract)].get ⟨i, h2⟩ =
            set_name ([({ address := some 1 } : Contract)].get ⟨i, h1⟩)
              (([({ name := "Foo", address := some 1 } : Contract)].get ⟨i, h2⟩).name)) :=
  ⟨c4_name_resolution_semantics.1,
   c4_name_resolution_semantics.2.1 0x466f6f [] "Foo" (by decide),
   c4_name_resolution_semantics.2.2.1 c4_call [{ address := some 1 }]
     { address := some 2 } [] 2 (.provider (.otherProvider 3))
     (by
       intro c' hc'
       fin_cases hc'
       exact ⟨1, "Foo", rfl, by decide⟩)
     rfl (by decide),
   c4_name_resolution_semantics.2.2.2 c4_call [{ address := some 1 }]
     [{ name := "Foo", address := some 1 }] (by decide)⟩

/-- C10: unstated precondition of the name-resolution call: the code indexes
element 0 of a successful call's result unconditionally, so a successful
call returning an empty sequence panics; under the hypothesis that every
successful call returns at least one field element (and every reconciled
contract carries an address), the pass never reaches the panic. -/
theorem c10_successful_call_must_be_nonempty :
    (resolve_name (.ok []) = .panicked) ∧
    (∀ (call : FieldElement → Except ProviderError (List FieldElement))
       (cs : List Contract),
      (∀ c ∈ cs, (c.address).isSome) →
      (∀ a res, call a = .ok res → res ≠ []) →
      fetch_contract_names call cs ≠ .panicked) :=
  ⟨rfl, fun call cs h1 h2 => fetch_contract_names_no_panic call cs h1 h2⟩

/-- Witness for C10: the empty successful result panics; a source that
always answers `[7]` never panics on a single addressed contract. -/
theorem c10_successful_call_must_be_nonempty_witness :
    (resolve_name (.ok []) = .panicked) ∧
    fetch_contract_names (fun _ => .ok [7]) [{ address := some 1 }] ≠ .panicked :=
  ⟨c10_successful_call_must_be_nonempty.1,
   c10_successful_call_must_be_nonempty.2 (fun _ => .ok [7]) [{ address := some 1 }]
     (by
       intro c hc
       fin_cases hc
       rfl)
     (by
       intro a res h
       injection h with h2
       rw [← h2]
       decide)⟩

/-- C3: for every page source that returns `N` well-chained pages — each of
the first `N-1` responses carrying a continuation token and the last one an
absent token — the fetcher returns the concatenation of all pages' events in
order and issues exactly `N` calls, each with the default page size (100)
and the token from the previous response, the first with an absent token. -/
theorem c3_pagination_drains_all_pages
    (src : Option Nat → Nat → Except ProviderError EventsPage)
    (pages : List EventsPage)
    (hne : pages ≠ [])
    (hresp : ∀ i (h : i < pages.length),
      src (chain_token_from none pages i) DEFAULT_CHUNK_SIZE = .ok (pages.get ⟨i, h⟩))
    (hmid : ∀ i p, pages.get? i = some p → i + 1 < pages.length →
      p.continuation_token ≠ none)
    (hlast : ∀ p, pages.get? (pages.length - 1) = some p →
      p.continuation_token = none) :
    get_events src pages.length =
      (.ok (pages.map (fun p => p.events)).flatten,
       (List.range pages.length).map
         (fun i => (chain_token_from none pages i, DEFAULT_CHUNK_SIZE))) :=
  get_events_loop_pages src pages none hne hresp hmid hlast

/-- The two-page source for the C3 witness: the first response carries token
1, the second none. -/
def c3_src : Option Nat → Nat → Except ProviderError EventsPage :=
  fun tok _ =>
    match tok with
    | none => .ok ⟨[⟨[1], [], none⟩], some 1⟩
    | some 1 => .ok ⟨[⟨[2], [], none⟩], none⟩
    | some _ => .error (.otherProvider 0)

/-- Witness for C3 at a concrete two-page source: both pages' events are
returned in order and exactly two calls are issued, with tokens `none` then
`some 1`, both at chunk size 100. -/
theorem c3_pagination_drains_all_pages_witness :
    get_events c3_src 2 =
      (.ok [⟨[1], [], none⟩, (⟨[2], [], none⟩ : EmittedEvent)],
       [(none, 100), (some 1, 100)]) :=
  c3_pagination_drains_all_pages c3_src
    [⟨[⟨[1], [], none⟩], some 1⟩, ⟨[⟨[2], [], none⟩], none⟩]
    (by decide)
    (by
      intro i h
      have h2 : i < 2 := h
      interval_cases i <;> rfl)
    (by
      intro i p hp hlt
      have hlen : i + 1 < 2 := hlt
      have hi : i = 0 := by omega
      subst hi
      injection hp with h2
      rw [← h2]
      decide)
    (by
      intro p hp
      injection hp with h2
      rw [← h2])

/-- With the three bootstrap reads successful, `load_from_remote` propagates
a panic or error of the event-replay stage unchanged. -/
theorem load_from_remote_propagates
    (sel : Selectors) (p : Provider) (w : FieldElement) (fuel : Nat)
    (wch bch mch maddr : FieldElement)
    (h1 : p.get_class_hash_at w = .ok wch)
    (h2 : p.call_base = .ok bch)
    (h3 : p.call_model RESOURCE_METADATA_MODEL_NAME = .ok (mch, maddr)) :
    (get_remote_models_and_contracts sel p fuel = .panicked →
      load_from_remote sel p w fuel = .panicked) ∧
    (∀ e, get_remote_models_and_contracts sel p fuel = .err e →
      load_from_remote sel p w fuel = .err e) := by
  constructor
  · intro h4
    simp only [load_from_remote, h1, h2, h3, h4]
  · intro e h4
    simp only [load_from_remote, h1, h2, h3, h4]

/-- When the model map cannot be built from the registration bucket, the
event-replay stage panics. -/
theorem get_remote_panics_on_models
    (sel : Selectors) (p : Provider) (fuel : Nat)
    (events : List EmittedEvent) (calls : List (Option Nat × Nat))
    (hev : get_events p.get_events_page fuel = (.ok events, calls))
    (hmodels : parse_models_events (classify sel events).1 = none) :
    get_remote_models_and_contracts sel p fuel = .panicked := by
  have hev1 : (get_events p.get_events_page fuel).1 = .ok events := by rw [hev]
  simp only [get_remote_models_and_contracts, hev1, hmodels]

/-- When both parse stages succeed and the name-resolution pass returns an
error, the event-replay stage returns that error. -/
theorem get_remote_err_from_fetch
    (sel : Selectors) (p : Provider) (fuel : Nat)
    (events : List EmittedEvent) (calls : List (Option Nat × Nat))
    (models : String → Option FieldElement) (contracts : List Contract)
    (e : ManifestError)
    (hev : get_events p.get_events_page fuel = (.ok events, calls))
    (hm : parse_models_events (classify sel events).1 = some models)
    (hc : parse_contracts_events (classify sel events).2.1 (classify sel events).2.2 =
      some contracts)
    (hf : fetch_contract_names p.call_contract contracts = .err e) :
    get_remote_models_and_contracts sel p fuel = .err e := by
  have hev1 : (get_events p.get_events_page fuel).1 = .ok events := by rw [hev]
  simp only [get_remote_models_and_contracts, hev1, hm, hc, hf]

/-- Failing to process one registration event (after a well-processed
prefix) makes the whole model-map construction fail. -/
theorem parse_models_events_fails_at
    (pre : List EmittedEvent) (e : EmittedEvent) (post : List EmittedEvent)
    (m : String → Option FieldElement)
    (hpre : models_fold (fun _ => none) pre = some m)
    (hstep : models_step m e = none) :
    parse_models_events (pre ++ e :: post) = none := by
  rw [parse_models_events, models_fold_append]
  simp only [hpre]
  simp only [models_fold, hstep]

/-- C8: a short-string decode failure aborts the whole reconstruction and no
manifest is returned — via a panic when a registration event's packed name
does not decode, and via the returned short-string-decode error when the
first field element of a name-resolution result does not decode. -/
theorem c8_short_string_decode_failure_aborts
    (sel : Selectors) (p : Provider) (w : FieldElement) (fuel : Nat)
    (wch bch mch maddr : FieldElement) (events : List EmittedEvent)
    (calls : List (Option Nat × Nat))
    (hb1 : p.get_class_hash_at w = .ok wch)
    (hb2 : p.call_base = .ok bch)
    (hb3 : p.call_model RESOURCE_METADATA_MODEL_NAME = .ok (mch, maddr))
    (hev : get_events p.get_events_page fuel = (.ok events, calls)) :
    ((∀ (pre : List EmittedEvent) (e : EmittedEvent) (post : List EmittedEvent)
        (m : String → Option FieldElement) (ch prev nf : FieldElement),
        (classify sel events).1 = pre ++ e :: post →
        models_fold (fun _ => none) pre = some m →
        parse_model_registered e = some (ch, prev, nf) →
        parse_cairo_short_string nf = none →
        load_from_remote sel p w fuel = .panicked) ∧
     (∀ (models : String → Option FieldElement) (contracts : List Contract)
        (cpre : List Contract) (c : Contract) (cpost : List Contract)
        (a f : FieldElement) (res : List FieldElement),
        parse_models_events (classify sel events).1 = some models →
        parse_contracts_events (classify sel events).2.1 (classify sel events).2.2 =
          some contracts →
        contracts = cpre ++ c :: cpost →
        (∀ c' ∈ cpre, ∃ a' n, c'.address = some a' ∧
          resolve_name (p.call_contract a') = .ok n) →
        c.address = some a →
        p.call_contract a = .ok (f :: res) →
        parse_cairo_short_string f = none →
        load_from_remote sel p w fuel = .err .parseCairoShortString)) := by
  constructor
  · intro pre e post m ch prev nf hsplit hpre hp hn
    have hstep : models_step m e = none := by
      simp only [models_step, hp, hn]
    have hmod : parse_models_events (classify sel events).1 = none := by
      rw [hsplit]
      exact parse_models_events_fails_at pre e post m hpre hstep
    exact (load_from_remote_propagates sel p w fuel wch bch mch maddr hb1 hb2 hb3).1
      (get_remote_panics_on_models sel p fuel events calls hev hmod)
  · intro models contracts cpre c cpost a f res hm hc hsplitc hpre' ha hcall hf
    have hres : resolve_name (p.call_contract a) = .err .parseCairoShortString := by
      simp only [resolve_name, hcall, hf]
    have hfetch : fetch_contract_names p.call_contract contracts =
        .err .parseCairoShortString := by
      rw [hsplitc]
      exact fetch_contract_names_err _ cpre c cpost a _ hpre' ha hres
    exact (load_from_remote_propagates sel p w fuel wch bch mch maddr hb1 hb2 hb3).2 _
      (get_remote_err_from_fetch sel p fuel events calls models contracts _
        hev hm hc hfetch)

/-- A provider emitting one registration event whose packed name
(`2 ^ 248`) is not decodable text. -/
def c8_provider_bad_registration : Provider where
  get_class_hash_at := fun _ => .ok 7
  call_base := .ok 8
  call_model := fun _ => .ok (9, 0)
  get_events_page := fun _ _ => .ok ⟨[⟨[1], [2, 0, 2 ^ 248], some 1⟩], none⟩
  call_contract := fun _ => .ok [0]

/-- A provider emitting one deployment event whose contract answers the
name-resolution call with the undecodable field element `2 ^ 248`. -/
def c8_provider_bad_resolution : Provider where
  get_class_hash_at := fun _ => .ok 7
  call_base := .ok 8
  call_model := fun _ => .ok (9, 0)
  get_events_page := fun _ _ => .ok ⟨[⟨[2], [0, 1, 10], some 1⟩], none⟩
  call_contract := fun _ => .ok [2 ^ 248]

/-- Witness for C8 at concrete providers: an undecodable registration name
makes reconstruction panic; an undecodable name-resolution result makes it
return the short-string-decode error.  In both cases no manifest is
produced. -/
theorem c8_short_string_decode_failure_aborts_witness :
    load_from_remote ⟨1, 2, 3⟩ c8_provider_bad_registration 9 1 = .panicked ∧
    load_from_remote ⟨1, 2, 3⟩ c8_provider_bad_resolution 9 1 =
      .err .parseCairoShortString :=
  ⟨(c8_short_string_decode_failure_aborts ⟨1, 2, 3⟩ c8_provider_bad_registration 9 1
      7 8 9 0 [⟨[1], [2, 0, 2 ^ 248], some 1⟩] [(none, 100)] rfl rfl rfl rfl).1
    [] ⟨[1], [2, 0, 2 ^ 248], some 1⟩ [] (fun _ => none) 2 0 (2 ^ 248)
    rfl rfl rfl (by decide),
   (c8_short_string_decode_failure_aborts ⟨1, 2, 3⟩ c8_provider_bad_resolution 9 1
      7 8 9 0 [⟨[2], [0, 1, 10], some 1⟩] [(none, 100)] rfl rfl rfl rfl).2
    (fun _ => none) [{ address := some 10, class_hash := 1 }]
    [] { address := some 10, class_hash := 1 } [] 10 (2 ^ 248) []
    rfl rfl rfl (by intro c' hc'; cases hc') rfl rfl (by decide)⟩

end DojoManifest
